import Mathlib

/-!
# mcp-weave: verification of the runtime dispatcher and WebSocket transport

Shallow embedding of the parts of `mcp-weave` that the specification's claims
are about: the hand-rolled WebSocket frame codec and its message loop
(`startWebSocket` in the nestjs runtime server), the URI-template matcher
(`extractUriParams`), the positional argument resolvers
(`resolveToolArgs` / `resolveResourceArgs`), the inline WebSocket JSON-RPC
handlers, and the API-key authentication middleware
(`extractApiKey`, `validateApiKey`, `hashToken`, `createAuthMiddleware`).

Buffers are modelled as `List Nat` of byte values; JavaScript bitwise
operations on bytes are written with `/`, `%` and `Nat.xor`
(`x & 0x7f = x % 128`, `x & 0x0f = x % 16`, the `0x80` bit test is
`x / 128 % 2 = 1`).  JavaScript strings are Lean `String`s; `.length`,
`.slice` and friends are the corresponding character-level operations.
-/

/-! ## WebSocket frame codec (runtime server, `startWebSocket`)

`encodeFrame` and `decodeFrame` are local functions of `startWebSocket`.
The payload travels as bytes; the JavaScript code converts it to and from a
string with `Buffer.from(data, 'utf8')` / `buffer.toString('utf8')`, which we
model by working with the payload's UTF-8 byte sequence directly. -/

/-- A decoded frame, as returned by `decodeFrame`: the 4-bit opcode and the
payload.  The source stores the payload as the UTF-8-decoded string; we keep
the underlying byte sequence. -/
structure WsFrame where
  opcode : Nat
  payload : List Nat
deriving DecidableEq, Repr

/-- `buffer.readUInt16BE(off)`: big-endian 16-bit read. -/
def readUInt16BE (buffer : List Nat) (off : Nat) : Nat :=
  buffer.getD off 0 * 256 + buffer.getD (off + 1) 0

/-- `buffer.readBigUInt64BE(off)` followed by `Number(...)`: big-endian
64-bit read (exact for all lengths a real buffer can declare). -/
def readUInt64BE (buffer : List Nat) (off : Nat) : Nat :=
  buffer.getD off 0 * 2 ^ 56 + buffer.getD (off + 1) 0 * 2 ^ 48 +
    buffer.getD (off + 2) 0 * 2 ^ 40 + buffer.getD (off + 3) 0 * 2 ^ 32 +
    buffer.getD (off + 4) 0 * 2 ^ 24 + buffer.getD (off + 5) 0 * 2 ^ 16 +
    buffer.getD (off + 6) 0 * 256 + buffer.getD (off + 7) 0

/-- `frame.writeBigUInt64BE(BigInt(length), 2)`: the eight big-endian bytes
of a 64-bit length. -/
def be8 (n : Nat) : List Nat :=
  [n / 2 ^ 56 % 256, n / 2 ^ 48 % 256, n / 2 ^ 40 % 256, n / 2 ^ 32 % 256,
   n / 2 ^ 24 % 256, n / 2 ^ 16 % 256, n / 256 % 256, n % 256]

/-- `encodeFrame` (send path): a single unmasked FIN text frame (first byte
`0x81`), with the RFC6455 minimal length encoding: one length byte below 126,
escape `126` plus a 2-byte big-endian length below 65536, escape `127` plus an
8-byte big-endian length otherwise. -/
def encodeFrame (payload : List Nat) : List Nat :=
  let length := payload.length
  if length < 126 then
    0x81 :: length :: payload
  else if length < 65536 then
    0x81 :: 126 :: length / 256 :: length % 256 :: payload
  else
    0x81 :: 127 :: be8 length ++ payload

/-- The per-byte unmasking loop of `decodeFrame`:
`payload[i] = payload[i] ^ mask[i % 4]` (with the source's `?? 0` defaults),
starting at index `i`. -/
def maskBytesFrom (mask : List Nat) (i : Nat) : List Nat → List Nat
  | [] => []
  | b :: rest => (b ^^^ mask.getD (i % 4) 0) :: maskBytesFrom mask (i + 1) rest

/-- XOR a payload against a 4-byte masking key, `mask[i % 4]` per byte. -/
def maskBytes (mask payload : List Nat) : List Nat :=
  maskBytesFrom mask 0 payload

/-- The tail of `decodeFrame` after the payload length and its offset are
known: check the mask bit, bounds-check the buffer, slice the masking key and
payload, and unmask if needed. -/
def decodePayload (buffer : List Nat) (opcode : Nat) (masked : Bool)
    (payloadLength offset : Nat) : Option WsFrame :=
  if masked then
    if buffer.length < offset + 4 + payloadLength then none
    else
      let mask := (buffer.drop offset).take 4
      let payload := (buffer.drop (offset + 4)).take payloadLength
      some ⟨opcode, maskBytes mask payload⟩
  else
    if buffer.length < offset + payloadLength then none
    else some ⟨opcode, (buffer.drop offset).take payloadLength⟩

/-- `decodeFrame` (receive path): returns `none` ("need more data") when the
buffer is shorter than the declared frame, otherwise the opcode
(`byte0 & 0x0f`) and the (unmasked) payload bytes.  The payload length is one
byte (`byte1 & 0x7f`), or a 16-bit extension after `126`, or a 64-bit
extension after `127`. -/
def decodeFrame (buffer : List Nat) : Option WsFrame :=
  if buffer.length < 2 then none
  else
    let byte0 := buffer.getD 0 0
    let byte1 := buffer.getD 1 0
    let opcode := byte0 % 16
    let masked := byte1 / 128 % 2 == 1
    let payloadLength := byte1 % 128
    if payloadLength = 126 then
      if buffer.length < 4 then none
      else decodePayload buffer opcode masked (readUInt16BE buffer 2) 4
    else if payloadLength = 127 then
      if buffer.length < 10 then none
      else decodePayload buffer opcode masked (readUInt64BE buffer 2) 10
    else decodePayload buffer opcode masked payloadLength 2

/-- The total number of bytes a frame header declares: 2 base header bytes,
the extended-length bytes, 4 masking-key bytes when the mask bit is set, and
the declared payload length.  (Reads past the available bytes default to 0,
which keeps the declared total above the buffer length whenever the extension
bytes themselves are missing.) -/
def frameTotalLen (buffer : List Nat) : Nat :=
  let byte1 := buffer.getD 1 0
  let payloadLength := byte1 % 128
  let maskLen := if byte1 / 128 % 2 = 1 then 4 else 0
  if payloadLength = 126 then 4 + maskLen + readUInt16BE buffer 2
  else if payloadLength = 127 then 10 + maskLen + readUInt64BE buffer 2
  else 2 + maskLen + payloadLength

example : decodeFrame (encodeFrame [72, 105]) = some ⟨1, [72, 105]⟩ := by decide
example : decodeFrame [0x81, 0x82, 0, 0, 0, 0, 195, 169] = some ⟨1, [195, 169]⟩ := by
  decide

/-! ## WebSocket message loop (`socket.on('data', ...)`)

After each successful decode the loop removes `frameSize` bytes from the
accumulated buffer, where `frameSize` is the base header size (2, or 4 with a
16-bit extension, or 10 with a 64-bit extension), plus 4 for the masking key
when the mask bit is set, plus `frame.payload.length`.  The source's
`frame.payload` is the *string* obtained by `buffer.toString('utf8')`, so the
final summand is the number of UTF-16 code units of the decoded payload, not
the number of payload bytes. -/

/-- Is `b` a UTF-8 continuation byte (`0x80..0xBF`)? -/
def isUtf8Cont (b : Nat) : Bool := 0x80 ≤ b && b < 0xC0

/-- One decoding step for `utf16Len`: given the lead byte and the bytes after
it, the number of UTF-16 code units produced and how many extra bytes (beyond
the lead byte) the sequence consumes. -/
def utf16Step (b : Nat) (bs : List Nat) : Nat × Nat :=
  if b < 0x80 then (1, 0)
  else if b < 0xC2 then (1, 0)
  else if b < 0xE0 then
    match bs with
    | b1 :: _ => if isUtf8Cont b1 then (1, 1) else (1, 0)
    | [] => (1, 0)
  else if b < 0xF0 then
    match bs with
    | b1 :: b2 :: _ => if isUtf8Cont b1 && isUtf8Cont b2 then (1, 2) else (1, 0)
    | _ => (1, 0)
  else if b < 0xF5 then
    match bs with
    | b1 :: b2 :: b3 :: _ =>
      if isUtf8Cont b1 && isUtf8Cont b2 && isUtf8Cont b3 then (2, 3) else (1, 0)
    | _ => (1, 0)
  else (1, 0)

/-- Iteration counter variant of `utf16Len`; every step consumes at least one
byte, so `bs.length` iterations always suffice (`utf16LenGo_fuel`). -/
def utf16LenGo : Nat → List Nat → Nat
  | 0, _ => 0
  | _, [] => 0
  | fuel + 1, b :: bs =>
    (utf16Step b bs).1 + utf16LenGo fuel (bs.drop (utf16Step b bs).2)

/-- The number of UTF-16 code units in `buffer.toString('utf8')` for a byte
sequence: exact on well-formed UTF-8 (one unit per code point below
`U+10000`, two units — a surrogate pair — per 4-byte sequence); malformed
bytes count one replacement unit each. -/
def utf16Len (bs : List Nat) : Nat := utf16LenGo bs.length bs

theorem utf16LenGo_fuel (n : Nat) : ∀ m bs, bs.length ≤ n → bs.length ≤ m →
    utf16LenGo n bs = utf16LenGo m bs := by
  induction n with
  | zero =>
    intro m bs hn _
    have : bs = [] := List.length_eq_zero.mp (Nat.le_zero.mp hn)
    subst this
    cases m <;> rfl
  | succ k ih =>
    intro m bs hn hm
    match bs, m with
    | [], 0 => rfl
    | [], m + 1 => rfl
    | b :: bs, m + 1 =>
      simp only [utf16LenGo]
      exact congrArg _ (ih m (bs.drop (utf16Step b bs).2)
        (by simp only [List.length_drop]; simp at hn; omega)
        (by simp only [List.length_drop]; simp at hm; omega))

/-- The base frame-header size selected from the length byte: `4` for a
16-bit extension, `10` for a 64-bit extension, `2` otherwise. -/
def frameBaseSize (byte1 : Nat) : Nat :=
  if byte1 % 128 = 126 then 4 else if byte1 % 128 = 127 then 10 else 2

/-- The `frameSize` the loop removes from the buffer after decoding `frame`:
the base header size, `+ 4` when the mask bit is set, and
`+ frame.payload.length` — the UTF-16 length of the decoded payload *string*,
not the number of payload bytes. -/
def consumedSize (buffer : List Nat) (framePayload : List Nat) : Nat :=
  (if buffer.getD 1 0 / 128 % 2 = 1 then frameBaseSize (buffer.getD 1 0) + 4
   else frameBaseSize (buffer.getD 1 0)) + utf16Len framePayload

theorem consumedSize_pos (buffer framePayload : List Nat) :
    0 < consumedSize buffer framePayload := by
  unfold consumedSize frameBaseSize
  repeat' split
  all_goals omega

/-- The outcome of running the `while` loop of the `'data'` handler on the
current accumulated buffer: the text-frame payloads handed to `JSON.parse`
(in order), the bytes left in the buffer, and whether a close frame ended the
socket. -/
structure WsLoopResult where
  messages : List (List Nat)
  rest : List Nat
  closed : Bool
deriving DecidableEq, Repr

/-- Iteration counter variant of the message loop; every successful decode
removes at least one byte from the buffer, so `buffer.length` iterations
always suffice (`wsLoopGo_fuel`). -/
def wsLoopGo : Nat → List Nat → WsLoopResult
  | 0, buffer => ⟨[], buffer, false⟩
  | fuel + 1, buffer =>
    if buffer.length = 0 then ⟨[], buffer, false⟩
    else
      match decodeFrame buffer with
      | none => ⟨[], buffer, false⟩
      | some frame =>
        let rest := buffer.drop (consumedSize buffer frame.payload)
        if frame.opcode = 8 then ⟨[], rest, true⟩
        else if frame.opcode = 9 then wsLoopGo fuel rest
        else if frame.opcode = 1 then
          let r := wsLoopGo fuel rest
          ⟨frame.payload :: r.messages, r.rest, r.closed⟩
        else wsLoopGo fuel rest

/-- The `while (messageBuffer.length > 0)` loop: decode one frame or stop,
drop `consumedSize` bytes, then return on a close frame (`0x8`), answer and
continue on a ping (`0x9`), emit the payload of a text frame (`0x1`), and
silently skip any other opcode. -/
def wsLoop (buffer : List Nat) : WsLoopResult := wsLoopGo buffer.length buffer

theorem wsLoopGo_fuel (n : Nat) : ∀ m buffer, buffer.length ≤ n →
    buffer.length ≤ m → wsLoopGo n buffer = wsLoopGo m buffer := by
  induction n with
  | zero =>
    intro m buffer hn _
    have hb : buffer.length = 0 := Nat.le_zero.mp hn
    cases m with
    | zero => rfl
    | succ m => simp [wsLoopGo, hb]
  | succ k ih =>
    intro m buffer hn hm
    by_cases hb : buffer.length = 0
    · cases m with
      | zero => simp [wsLoopGo, hb]
      | succ m => simp [wsLoopGo, hb]
    · cases m with
      | zero => omega
      | succ m =>
        simp only [wsLoopGo, hb, if_false]
        cases hd : decodeFrame buffer with
        | none => rfl
        | some frame =>
          have hrest : (buffer.drop (consumedSize buffer frame.payload)).length ≤ k ∧
              (buffer.drop (consumedSize buffer frame.payload)).length ≤ m := by
            have := consumedSize_pos buffer frame.payload
            simp only [List.length_drop]
            omega
          simp only [ih m _ hrest.1 hrest.2]

/-- One delivery of the `'data'` event: append the chunk to the carried-over
buffer and run the loop.  (The in-place unmasking of the payload view that
`decodeFrame` performs on the Node buffer is not modelled; the loop theorems
below use an all-zero masking key, for which it rewrites nothing.) -/
def wsDeliver (prior chunk : List Nat) : WsLoopResult :=
  wsLoop (prior ++ chunk)

example : wsDeliver [] [0x81, 0x02, 72, 105] = ⟨[[72, 105]], [], false⟩ := by decide

/-- **C1** (code bug): the message loop is supposed to remove exactly the
decoded frame's total byte length from the buffer, but it adds
`frame.payload.length` — the UTF-16 length of the *decoded string* — instead
of the payload's byte length.  Concretely: a single complete 8-byte masked
text frame whose payload is the 2-byte UTF-8 encoding of `U+00E9` (`é`,
bytes `C3 A9`, masking key `00 00 00 00`, so that the in-place unmasking of
the Node buffer view rewrites nothing) is decoded as one message, but the
loop removes only `2 + 4 + 1 = 7` bytes, leaving a stray byte in the buffer
that desynchronizes every following frame. -/
theorem wsLoop_removes_string_length_not_byte_length :
    wsDeliver [] [0x81, 0x82, 0, 0, 0, 0, 0xC3, 0xA9] =
      ⟨[[0xC3, 0xA9]], [0xA9], false⟩ ∧
    ([0x81, 0x82, 0, 0, 0, 0, 0xC3, 0xA9] : List Nat).length = 8 ∧
    consumedSize [0x81, 0x82, 0, 0, 0, 0, 0xC3, 0xA9] [0xC3, 0xA9] = 7 ∧
    decodeFrame [0x81, 0x82, 0, 0, 0, 0, 0xC3, 0xA9] = some ⟨1, [0xC3, 0xA9]⟩ := by
  decide

/-! ## Frame codec round-trip and totality -/

theorem maskBytesFrom_length (mask : List Nat) (i : Nat) (p : List Nat) :
    (maskBytesFrom mask i p).length = p.length := by
  induction p generalizing i with
  | nil => rfl
  | cons b bs ih => simp [maskBytesFrom, ih]

theorem maskBytesFrom_involutive (mask : List Nat) (i : Nat) (p : List Nat) :
    maskBytesFrom mask i (maskBytesFrom mask i p) = p := by
  induction p generalizing i with
  | nil => rfl
  | cons b bs ih =>
    simp [maskBytesFrom, ih, Nat.xor_assoc, Nat.xor_self, Nat.xor_zero]

theorem readUInt16BE_at2 (a b L : Nat) (p : List Nat) :
    readUInt16BE (a :: b :: L / 256 :: L % 256 :: p) 2 = L := by
  simp only [readUInt16BE, List.getD_cons_succ, List.getD_cons_zero]
  omega

theorem readUInt64BE_at2 (a b L : Nat) (p : List Nat) (h : L < 2 ^ 64) :
    readUInt64BE (a :: b :: (be8 L ++ p)) 2 = L := by
  simp only [readUInt64BE, be8, List.cons_append, List.nil_append,
    List.getD_cons_succ, List.getD_cons_zero]
  omega

theorem readUInt64BE_at2' (a b L : Nat) (p : List Nat) (h : L < 2 ^ 64) :
    readUInt64BE (a :: b :: L / 72057594037927936 % 256 ::
      L / 281474976710656 % 256 :: L / 1099511627776 % 256 ::
      L / 4294967296 % 256 :: L / 16777216 % 256 :: L / 65536 % 256 ::
      L / 256 % 256 :: L % 256 :: p) 2 = L := by
  have := readUInt64BE_at2 a b L p h
  simpa [be8] using this

/-- **C5**: `decode ∘ encode` recovers every payload with opcode `0x1`, and
the encoder emits the minimal RFC6455 length form: a 1-byte length below 126
bytes, escape `126` plus a 2-byte big-endian length below 65536 bytes, and
escape `127` plus an 8-byte big-endian length otherwise.  (The boundary sizes
0, 1, 125, 126, 65535 and 65536 are instances of the three cases.) -/
theorem decodeFrame_encodeFrame (p : List Nat) (h : p.length < 2 ^ 64) :
    decodeFrame (encodeFrame p) = some ⟨1, p⟩ ∧
    (p.length < 126 → encodeFrame p = 0x81 :: p.length :: p) ∧
    (126 ≤ p.length → p.length < 65536 →
      encodeFrame p = 0x81 :: 126 :: p.length / 256 :: p.length % 256 :: p) ∧
    (65536 ≤ p.length → encodeFrame p = 0x81 :: 127 :: be8 p.length ++ p) := by
  refine ⟨?_, ?_, ?_, ?_⟩
  · rcases Nat.lt_or_ge p.length 126 with h1 | h1
    · have hdiv : p.length / 128 = 0 := Nat.div_eq_of_lt (by omega)
      have hmod : p.length % 128 = p.length := Nat.mod_eq_of_lt (by omega)
      have hne1 : p.length ≠ 126 := by omega
      have hne2 : p.length ≠ 127 := by omega
      simp [encodeFrame, decodeFrame, decodePayload, h1, hdiv, hmod, hne1, hne2]
      omega
    · rcases Nat.lt_or_ge p.length 65536 with h2 | h2
      · have henc : encodeFrame p =
            0x81 :: 126 :: p.length / 256 :: p.length % 256 :: p := by
          unfold encodeFrame
          rw [if_neg (by omega), if_pos h2]
        rw [henc]
        simp [decodeFrame, decodePayload, readUInt16BE_at2]
        omega
      · have henc : encodeFrame p = 0x81 :: 127 :: be8 p.length ++ p := by
          unfold encodeFrame
          rw [if_neg (by omega), if_neg (by omega)]
        rw [henc]
        have hlen : (0x81 :: 127 :: be8 p.length ++ p).length = 10 + p.length := by
          simp [be8]
          omega
        have hread := readUInt64BE_at2' 0x81 127 p.length p h
        simp [decodeFrame, decodePayload, hlen, be8, hread]
        omega
  · intro h1
    simp [encodeFrame, h1]
  · intro h1 h2
    unfold encodeFrame
    rw [if_neg (by omega), if_pos h2]
  · intro h1
    unfold encodeFrame
    rw [if_neg (by omega), if_neg (by omega)]

/-- Witness for `decodeFrame_encodeFrame` at the concrete payload `"Hi"`
(bytes `72 105`). -/
theorem decodeFrame_encodeFrame_witness :
    decodeFrame (encodeFrame [72, 105]) = some ⟨1, [72, 105]⟩ :=
  (decodeFrame_encodeFrame [72, 105] (by decide)).1

/-- A synthetic masked client frame, as the spec's masked-frame test property
constructs it: FIN plus opcode in the first byte, the mask bit (`0x80`) set
on the length byte (with the same three RFC6455 length encodings the encoder
uses), then the 4-byte masking key, then the payload XORed with
`mask[i % 4]`. -/
def mkMaskedFrame (op : Nat) (mask payload : List Nat) : List Nat :=
  if payload.length < 126 then
    (0x80 + op) :: (0x80 + payload.length) :: (mask ++ maskBytes mask payload)
  else if payload.length < 65536 then
    (0x80 + op) :: 254 :: payload.length / 256 :: payload.length % 256 ::
      (mask ++ maskBytes mask payload)
  else
    (0x80 + op) :: 255 :: (be8 payload.length ++ (mask ++ maskBytes mask payload))

/-- **C6**: decoding a masked client frame (4-byte key, payload XORed with
`mask[i % 4]`) recovers the original plaintext payload and the frame's
opcode, for every payload length. -/
theorem decodeFrame_mkMaskedFrame (op : Nat) (mask p : List Nat)
    (hop : op < 16) (hm : mask.length = 4) (h : p.length < 2 ^ 64) :
    decodeFrame (mkMaskedFrame op mask p) = some ⟨op, p⟩ := by
  obtain ⟨mk, hmkdef⟩ : ∃ mk, maskBytes mask p = mk := ⟨_, rfl⟩
  have hmklen : mk.length = p.length := hmkdef ▸ maskBytesFrom_length mask 0 p
  have hinv : maskBytes mask mk = p := hmkdef ▸ maskBytesFrom_involutive mask 0 p
  have hop16 : (128 + op) % 16 = op := by omega
  have htakeL : mk.take p.length = mk := by
    rw [show p.length = mk.length from hmklen.symm]
    exact List.take_length _
  have htake4 : (mask ++ mk).take 4 = mask := List.take_left' hm
  have hdrop4 : (mask ++ mk).drop 4 = mk := List.drop_left' hm
  rcases Nat.lt_or_ge p.length 126 with h1 | h1
  · have henc : mkMaskedFrame op mask p =
        (128 + op) :: (128 + p.length) :: (mask ++ mk) := by
      unfold mkMaskedFrame
      rw [if_pos h1, hmkdef]
    have hpl : (128 + p.length) % 128 = p.length := by omega
    rw [henc]
    simp only [decodeFrame, decodePayload, List.getD_cons_succ, List.getD_cons_zero,
      List.length_cons, List.length_append, hm, hmklen, hop16, hpl, List.drop_succ_cons,
      List.drop_zero, htake4, hdrop4, htakeL, hinv, beq_iff_eq]
    split_ifs <;> first | rfl | (exfalso; omega)
  · rcases Nat.lt_or_ge p.length 65536 with h2 | h2
    · have henc : mkMaskedFrame op mask p =
          (128 + op) :: 254 :: p.length / 256 :: p.length % 256 :: (mask ++ mk) := by
        unfold mkMaskedFrame
        rw [if_neg (by omega), if_pos h2, hmkdef]
      rw [henc]
      simp only [decodeFrame, decodePayload, List.getD_cons_succ, List.getD_cons_zero,
        List.length_cons, List.length_append, hm, hmklen, hop16, readUInt16BE_at2,
        List.drop_succ_cons, List.drop_zero, htake4, hdrop4, htakeL, hinv, beq_iff_eq]
      split_ifs <;> first | rfl | (exfalso; omega)
    · have henc : mkMaskedFrame op mask p =
          (128 + op) :: 255 :: (be8 p.length ++ (mask ++ mk)) := by
        unfold mkMaskedFrame
        rw [if_neg (by omega), if_neg (by omega), hmkdef]
      have hbe8len : (be8 p.length).length = 8 := by simp [be8]
      have hbedrop8 : (be8 p.length ++ (mask ++ mk)).drop 8 = mask ++ mk :=
        List.drop_left' hbe8len
      have hbedrop12 : (be8 p.length ++ (mask ++ mk)).drop 12 = mk := by
        have h12 : (12 : Nat) = 8 + 4 := rfl
        rw [h12, ← List.drop_drop, hbedrop8, hdrop4]
      rw [henc]
      simp only [decodeFrame, decodePayload, List.getD_cons_succ, List.getD_cons_zero,
        List.length_cons, List.length_append, hm, hmklen, hbe8len, hop16,
        readUInt64BE_at2 (128 + op) 255 p.length (mask ++ mk) h,
        List.drop_succ_cons, List.drop_zero, hbedrop8, hbedrop12, htake4, htakeL, hinv,
        beq_iff_eq]
      split_ifs <;> first | rfl | (exfalso; omega)

/-- Witness for `decodeFrame_mkMaskedFrame`: opcode `0x1`, mask key
`01 02 03 04`, payload `"Hi"` (bytes `72 105`). -/
theorem decodeFrame_mkMaskedFrame_witness :
    decodeFrame (mkMaskedFrame 1 [1, 2, 3, 4] [72, 105]) = some ⟨1, [72, 105]⟩ :=
  decodeFrame_mkMaskedFrame 1 [1, 2, 3, 4] [72, 105] (by decide) (by decide) (by decide)

/-- **C9**: the decoder is total and never needs bytes it does not have: it
decodes a frame exactly when the buffer holds at least the 2 base header
bytes and the full declared frame (`frameTotalLen`: base header, extension
bytes, masking key when the mask bit is set, and the declared payload
length); otherwise it returns `none` ("need more data"). -/
theorem decodeFrame_isSome_iff (buffer : List Nat) :
    (decodeFrame buffer).isSome = true ↔
      2 ≤ buffer.length ∧ frameTotalLen buffer ≤ buffer.length := by
  simp only [decodeFrame, frameTotalLen, decodePayload, beq_iff_eq,
    List.getD_eq_getElem?_getD]
  split_ifs <;> simp <;> omega

/-! ## URI template matcher (`extractUriParams`)

The source compiles a template to a regular expression by replacing every
`{word}` group with `([^/]+)` (global regex `\{(\w+)\}`), anchors it with
`^...$`, matches the candidate URI, and zips the collected capture names with
the match groups.  We model the compiled pattern as a list of items — a
literal character or a `([^/]+)` capture — and implement the anchored
greedy/backtracking match the JavaScript engine performs on it.  Template
characters outside capture groups are modelled as literal matches, which is
exact for every character with no special regex meaning; all templates in the
theorems below stay inside this fragment. -/

/-- One atom of the compiled pattern: a literal character, or a `([^/]+)`
capture group carrying its parameter name. -/
inductive PatItem where
  | lit (c : Char)
  | capture (s : String)
deriving DecidableEq, Repr

/-- JavaScript `\w`: ASCII letters, digits and underscore. -/
def isWordChar (c : Char) : Bool := c.isAlphanum || c = '_'

/-- One step of the scan `template.replace(/\{(\w+)\}/g, ...)` at the current
character `c` (with `rest` after it): the pattern item emitted and the
characters still to scan.  A `{word}` group (a maximal nonempty
word-character run directly followed by `}`) becomes a capture item; every
other character stays literal. -/
def tplStep (c : Char) (rest : List Char) : PatItem × List Char :=
  if c = '{' then
    match rest.takeWhile isWordChar, rest.drop (rest.takeWhile isWordChar).length with
    | [], _ => (.lit c, rest)
    | _ :: _, '}' :: rest2 => (.capture (String.mk (rest.takeWhile isWordChar)), rest2)
    | _ :: _, _ => (.lit c, rest)
  else (.lit c, rest)

theorem tplStep_len (c : Char) (rest : List Char) :
    (tplStep c rest).2.length ≤ rest.length := by
  unfold tplStep
  split
  · split
    · exact le_rfl
    · next heq =>
      have := congrArg List.length heq
      simp only [List.length_drop, List.length_cons] at this
      simp only []
      omega
    · exact le_rfl
  · exact le_rfl

/-- Iteration counter variant of `templateToItems`; each step consumes at
least one character, so `l.length` iterations suffice
(`templateToItemsGo_fuel`). -/
def templateToItemsGo : Nat → List Char → List PatItem
  | 0, _ => []
  | _, [] => []
  | fuel + 1, c :: rest =>
    (tplStep c rest).1 :: templateToItemsGo fuel (tplStep c rest).2

/-- The full scan of `template.replace(/\{(\w+)\}/g, ...)`: the compiled
pattern of the template. -/
def templateToItems (l : List Char) : List PatItem := templateToItemsGo l.length l

theorem templateToItemsGo_fuel (n : Nat) : ∀ m l, l.length ≤ n → l.length ≤ m →
    templateToItemsGo n l = templateToItemsGo m l := by
  induction n with
  | zero =>
    intro m l hn _
    have : l = [] := List.length_eq_zero.mp (Nat.le_zero.mp hn)
    subst this
    cases m <;> rfl
  | succ k ih =>
    intro m l hn hm
    match l, m with
    | [], 0 => rfl
    | [], m + 1 => rfl
    | c :: rest, m + 1 =>
      simp only [List.length_cons] at hn hm
      simp only [templateToItemsGo]
      have hle := tplStep_len c rest
      exact congrArg _ (ih m _ (by omega) (by omega))

theorem templateToItems_cons (c : Char) (rest : List Char) :
    templateToItems (c :: rest) =
      (tplStep c rest).1 :: templateToItems (tplStep c rest).2 := by
  unfold templateToItems
  simp only [List.length_cons, templateToItemsGo]
  exact congrArg _
    (templateToItemsGo_fuel rest.length _ _ (tplStep_len c rest) le_rfl)

/-- Iteration counter variant of `matchItems`; each step removes one pattern
item, so `ps.length` iterations suffice (and the unfolding equations below
hold definitionally). -/
def matchItemsGo : Nat → List PatItem → List Char → Option (List String)
  | _, [], cs => if cs.isEmpty then some [] else none
  | 0, _ :: _, _ => none
  | fuel + 1, .lit c :: ps, cs =>
    match cs with
    | [] => none
    | d :: cs2 => if d = c then matchItemsGo fuel ps cs2 else none
  | fuel + 1, .capture _ :: ps, cs =>
    (List.range (cs.takeWhile (fun c => c != '/')).length).reverse.findSome?
      (fun k => (matchItemsGo fuel ps (cs.drop (k + 1))).map
        (fun gs => String.mk (cs.take (k + 1)) :: gs))

/-- Anchored match of a compiled pattern against the candidate characters,
returning the capture groups in order.  A capture `([^/]+)` consumes a
nonempty run of non-`/` characters, greedily (longest first) with
backtracking, exactly as the JavaScript regex engine does. -/
def matchItems (ps : List PatItem) (cs : List Char) : Option (List String) :=
  matchItemsGo ps.length ps cs

theorem matchItems_nil (cs : List Char) :
    matchItems [] cs = if cs.isEmpty then some [] else none := rfl

theorem matchItems_lit (c : Char) (ps : List PatItem) (cs : List Char) :
    matchItems (.lit c :: ps) cs =
      match cs with
      | [] => none
      | d :: cs2 => if d = c then matchItems ps cs2 else none := rfl

theorem matchItems_capture (n : String) (ps : List PatItem) (cs : List Char) :
    matchItems (.capture n :: ps) cs =
      (List.range (cs.takeWhile (fun c => c != '/')).length).reverse.findSome?
        (fun k => (matchItems ps (cs.drop (k + 1))).map
          (fun gs => String.mk (cs.take (k + 1)) :: gs)) := rfl

/-- The capture names of a compiled template, in order of appearance
(`paramNames` in the source). -/
def uriParamNames (template : List Char) : List String :=
  (templateToItems template).filterMap
    (fun i => match i with | .capture n => some n | _ => none)

/-- `extractUriParams(template, uri)`: `null` when the anchored pattern does
not match, otherwise the capture names zipped with the (verbatim, not
URL-decoded) matched segments. -/
def extractUriParams (template uri : String) : Option (List (String × String)) :=
  (matchItems (templateToItems template.toList) uri.toList).map
    (fun groups => (uriParamNames template.toList).zip groups)

/-- Reading `obj[key]` on the JavaScript object built by
`paramNames.forEach((name, index) => { params[name] = match[index + 1] })`:
a later assignment to the same name overwrites an earlier one. -/
def lookupLast (ps : List (String × String)) (k : String) : Option String :=
  ps.foldl (fun acc p => if p.1 = k then some p.2 else acc) none

example : extractUriParams "user://{userId}" "user://42" = some [("userId", "42")] := by
  decide
example : extractUriParams "user://{userId}" "user://a/b" = none := by decide
example : extractUriParams "data://{key}" "data://config" = some [("key", "config")] := by
  decide

/-! ### Structured templates

The spec's data model describes templates as `/`-delimited strings whose
segments are either literal text or a whole-segment `{identifier}` wildcard.
`TplSeg` is that shape; rendering a segment list and substituting capture
values reproduces the template strings and candidate URIs the claim
quantifies over. -/

/-- One `/`-delimited template segment: literal text, or a `{name}` capture
occupying the whole segment. -/
inductive TplSeg where
  | lit (s : String)
  | cap (s : String)
deriving DecidableEq, Repr

/-- Characters with no special meaning in a JavaScript regular expression
(the fragment `templateToItems` models exactly): word characters, `:` and
`-`. -/
def isPlainChar (c : Char) : Bool := isWordChar c || c = ':' || c = '-'

/-- The characters a segment contributes to the template string. -/
def segChars : TplSeg → List Char
  | .lit s => s.toList
  | .cap n => '{' :: (n.toList ++ ['}'])

/-- The characters a segment contributes to a candidate URI built by
substituting `σ` for the captures. -/
def candSegChars (σ : String → String) : TplSeg → List Char
  | .lit s => s.toList
  | .cap n => (σ n).toList

/-- Join segment character lists with `/`. -/
def joinSlash : List (List Char) → List Char
  | [] => []
  | [s] => s
  | s :: ss => s ++ '/' :: joinSlash ss

/-- The template string of a structured template. -/
def renderTpl (segs : List TplSeg) : List Char := joinSlash (segs.map segChars)

/-- The candidate URI built from a structured template by substituting
`σ n` for each capture `{n}`. -/
def renderCand (σ : String → String) (segs : List TplSeg) : List Char :=
  joinSlash (segs.map (candSegChars σ))

/-- The pattern items a segment compiles to. -/
def segItems : TplSeg → List PatItem
  | .lit s => s.toList.map PatItem.lit
  | .cap n => [PatItem.capture n]

/-- Join per-segment pattern items with a literal `/`. -/
def joinSlashI : List (List PatItem) → List PatItem
  | [] => []
  | [s] => s
  | s :: ss => s ++ PatItem.lit '/' :: joinSlashI ss

/-- The compiled pattern of a structured template. -/
def itemsOf (segs : List TplSeg) : List PatItem := joinSlashI (segs.map segItems)

/-- The capture names of a structured template, in order. -/
def capNames (segs : List TplSeg) : List String :=
  segs.filterMap (fun s => match s with | .cap n => some n | _ => none)

theorem stringMk_toList (s : String) : String.mk s.toList = s := rfl

/-! ### Scanner lemmas -/

theorem takeWhile_prefix_stop {p : Char → Bool} (l : List Char) (x : Char)
    (r : List Char) (hl : ∀ c ∈ l, p c = true) (hx : p x = false) :
    (l ++ x :: r).takeWhile p = l := by
  induction l with
  | nil => simp [List.takeWhile_cons, hx]
  | cons a l ih =>
    have ha : p a = true := hl a (by simp)
    simp only [List.cons_append, List.takeWhile_cons, ha, if_true]
    exact congrArg _ (ih (fun c hc => hl c (by simp [hc])))

theorem tplStep_plain (c : Char) (h : c ≠ '{') (rest : List Char) :
    tplStep c rest = (.lit c, rest) := by
  unfold tplStep
  rw [if_neg h]

theorem tplStep_capture (n r : List Char) (hne : n ≠ [])
    (hw : ∀ c ∈ n, isWordChar c = true) :
    tplStep '{' (n ++ '}' :: r) = (.capture (String.mk n), r) := by
  have htw : (n ++ '}' :: r).takeWhile isWordChar = n :=
    takeWhile_prefix_stop n '}' r hw (by decide)
  have hdr : (n ++ '}' :: r).drop n.length = '}' :: r := List.drop_left n ('}' :: r)
  obtain ⟨n0, nt⟩ : ∃ n0 nt, n = n0 :: nt := by
    cases n with
    | nil => exact absurd rfl hne
    | cons a b => exact ⟨a, ⟨b, rfl⟩⟩
  obtain ⟨nt, rfl⟩ := nt
  unfold tplStep
  rw [if_pos rfl]
  simp only [htw, hdr]

theorem templateToItems_nil : templateToItems [] = [] := rfl

theorem templateToItems_plain_append (l r : List Char)
    (hl : ∀ c ∈ l, c ≠ '{') :
    templateToItems (l ++ r) = l.map PatItem.lit ++ templateToItems r := by
  induction l with
  | nil => simp
  | cons c l ih =>
    have hc : c ≠ '{' := hl c (by simp)
    rw [List.cons_append, templateToItems_cons, tplStep_plain c hc]
    simp only [List.map_cons, List.cons_append]
    exact congrArg _ (ih (fun d hd => hl d (by simp [hd])))

theorem templateToItems_capture_append (n r : List Char) (hne : n ≠ [])
    (hw : ∀ c ∈ n, isWordChar c = true) :
    templateToItems ('{' :: (n ++ '}' :: r)) =
      PatItem.capture (String.mk n) :: templateToItems r := by
  rw [templateToItems_cons, tplStep_capture n r hne hw]

theorem templateToItems_slash_cons (r : List Char) :
    templateToItems ('/' :: r) = PatItem.lit '/' :: templateToItems r := by
  rw [templateToItems_cons, tplStep_plain '/' (by decide) r]

/-- Well-formed segment: literal text made of plain characters (so the
regex the source builds from it means literal matching), or a capture whose
name is a nonempty word-character run (so the `\{(\w+)\}` replace finds it). -/
def wfSeg : TplSeg → Prop
  | .lit s => ∀ c ∈ s.toList, isPlainChar c = true
  | .cap n => n.toList ≠ [] ∧ ∀ c ∈ n.toList, isWordChar c = true

theorem isPlainChar_ne_brace {c : Char} (h : isPlainChar c = true) : c ≠ '{' := by
  intro heq
  subst heq
  exact absurd h (by decide)

theorem isPlainChar_ne_slash {c : Char} (h : isPlainChar c = true) : c ≠ '/' := by
  intro heq
  subst heq
  exact absurd h (by decide)

/-- Compiling the rendered template of a well-formed structured template
yields exactly its per-segment items joined by literal `/`. -/
theorem templateToItems_renderTpl (segs : List TplSeg)
    (hwf : ∀ sg ∈ segs, wfSeg sg) :
    templateToItems (renderTpl segs) = itemsOf segs := by
  induction segs with
  | nil => rfl
  | cons seg rest ih =>
    have hseg : wfSeg seg := hwf seg (by simp)
    have hrest : ∀ sg ∈ rest, wfSeg sg := fun sg hsg => hwf sg (by simp [hsg])
    cases rest with
    | nil =>
      cases seg with
      | lit s =>
        have : renderTpl [TplSeg.lit s] = s.toList ++ [] := by
          simp [renderTpl, joinSlash, segChars]
        rw [this, templateToItems_plain_append s.toList []
          (fun c hc => isPlainChar_ne_brace (hseg c hc))]
        simp [itemsOf, joinSlashI, segItems, templateToItems_nil]
      | cap n =>
        have : renderTpl [TplSeg.cap n] = '{' :: (n.toList ++ '}' :: []) := by
          simp [renderTpl, joinSlash, segChars]
        rw [this, templateToItems_capture_append n.toList [] hseg.1 hseg.2]
        simp [itemsOf, joinSlashI, segItems, templateToItems_nil, stringMk_toList]
    | cons s2 ss =>
      have hrender : renderTpl (seg :: s2 :: ss) =
          segChars seg ++ '/' :: renderTpl (s2 :: ss) := rfl
      have hitems : itemsOf (seg :: s2 :: ss) =
          segItems seg ++ PatItem.lit '/' :: itemsOf (s2 :: ss) := rfl
      rw [hrender, hitems]
      cases seg with
      | lit s =>
        rw [show segChars (TplSeg.lit s) = s.toList from rfl,
          templateToItems_plain_append s.toList _
            (fun c hc => isPlainChar_ne_brace (hseg c hc)),
          templateToItems_slash_cons, ih hrest]
        rfl
      | cap n =>
        have halg : segChars (TplSeg.cap n) ++ '/' :: renderTpl (s2 :: ss) =
            '{' :: (n.toList ++ '}' :: ('/' :: renderTpl (s2 :: ss))) := by
          simp [segChars]
        rw [halg, templateToItems_capture_append n.toList _ hseg.1 hseg.2,
          templateToItems_slash_cons, ih hrest]
        simp [segItems, stringMk_toList]

/-! ### Matcher lemmas -/

theorem matchItems_lit_append (l : List Char) (ps : List PatItem) (cs : List Char) :
    matchItems (l.map PatItem.lit ++ ps) (l ++ cs) = matchItems ps cs := by
  induction l with
  | nil => rfl
  | cons c l ih =>
    rw [List.map_cons, List.cons_append, List.cons_append, matchItems_lit]
    simp only [if_pos rfl]
    exact ih

theorem matchItems_capture_only (n : String) (v : List Char) (hv : v ≠ [])
    (hs : ∀ c ∈ v, c ≠ '/') :
    matchItems [.capture n] v = some [String.mk v] := by
  obtain ⟨v0, vt, rfl⟩ : ∃ v0 vt, v = v0 :: vt := by
    cases v with
    | nil => exact absurd rfl hv
    | cons a b => exact ⟨a, b, rfl⟩
  rw [matchItems_capture]
  have htw : (v0 :: vt).takeWhile (fun c => c != '/') = v0 :: vt :=
    List.takeWhile_eq_self_iff.mpr (fun c hc => by simpa using hs c hc)
  rw [htw, show (v0 :: vt).length = vt.length + 1 from rfl, List.range_succ,
    List.reverse_append]
  simp only [List.reverse_singleton, List.singleton_append, List.findSome?_cons]
  rw [show vt.length + 1 = (v0 :: vt).length from rfl, List.drop_length,
    List.take_length, matchItems_nil]
  simp

theorem matchItems_capture_slash (n : String) (ps : List PatItem) (v cs : List Char)
    (hv : v ≠ []) (hs : ∀ c ∈ v, c ≠ '/') :
    matchItems (.capture n :: .lit '/' :: ps) (v ++ '/' :: cs) =
      (matchItems ps cs).map (fun gs => String.mk v :: gs) := by
  obtain ⟨v0, vt, rfl⟩ : ∃ v0 vt, v = v0 :: vt := by
    cases v with
    | nil => exact absurd rfl hv
    | cons a b => exact ⟨a, b, rfl⟩
  rw [matchItems_capture]
  have htw : ((v0 :: vt) ++ '/' :: cs).takeWhile (fun c => c != '/') = v0 :: vt :=
    takeWhile_prefix_stop _ _ _ (fun c hc => by simpa using hs c hc) (by decide)
  rw [htw, show (v0 :: vt).length = vt.length + 1 from rfl, List.range_succ,
    List.reverse_append]
  simp only [List.reverse_singleton, List.singleton_append, List.findSome?_cons]
  rw [show vt.length + 1 = (v0 :: vt).length from rfl,
    List.drop_left (v0 :: vt) ('/' :: cs), List.take_left (v0 :: vt) ('/' :: cs),
    matchItems_lit]
  simp only [if_pos rfl]
  cases hm : matchItems ps cs with
  | some gs => simp [hm]
  | none =>
    simp only [hm, Option.map_none']
    refine List.findSome?_eq_none_iff.mpr ?_
    intro k hk
    have hklt : k < vt.length := by
      have := List.mem_reverse.mp hk
      exact List.mem_range.mp this
    have hdrop : ((v0 :: vt) ++ '/' :: cs).drop (k + 1) =
        (v0 :: vt).drop (k + 1) ++ '/' :: cs :=
      List.drop_append_of_le_length (by simp; omega)
    rcases hd : (v0 :: vt).drop (k + 1) with _ | ⟨d, rest⟩
    · have := congrArg List.length hd
      simp only [List.length_drop, List.length_cons, List.length_nil] at this
      omega
    · have hdin : d ∈ v0 :: vt := List.drop_subset (k + 1) (v0 :: vt) (by simp [hd])
      have hdne : d ≠ '/' := hs d hdin
      rw [hdrop, hd, List.cons_append, matchItems_lit]
      simp [hdne]

/-- A well-formed structured template matches its own substitution instance,
returning exactly the substituted value for each capture, in order. -/
theorem matchItems_itemsOf (σ : String → String) (segs : List TplSeg)
    (hσ : ∀ n, TplSeg.cap n ∈ segs → (σ n).toList ≠ [] ∧ ∀ c ∈ (σ n).toList, c ≠ '/') :
    matchItems (itemsOf segs) (renderCand σ segs) = some ((capNames segs).map σ) := by
  induction segs with
  | nil => rfl
  | cons seg rest ih =>
    have hrest : ∀ n, TplSeg.cap n ∈ rest →
        (σ n).toList ≠ [] ∧ ∀ c ∈ (σ n).toList, c ≠ '/' :=
      fun n hn => hσ n (by simp [hn])
    cases rest with
    | nil =>
      cases seg with
      | lit s =>
        have h1 : itemsOf [TplSeg.lit s] = s.toList.map PatItem.lit ++ [] := by
          simp [itemsOf, joinSlashI, segItems]
        have h2 : renderCand σ [TplSeg.lit s] = s.toList ++ [] := by
          simp [renderCand, joinSlash, candSegChars]
        rw [h1, h2, matchItems_lit_append]
        rfl
      | cap n =>
        have hn := hσ n (by simp)
        have h1 : itemsOf [TplSeg.cap n] = [PatItem.capture n] := rfl
        have h2 : renderCand σ [TplSeg.cap n] = (σ n).toList := rfl
        rw [h1, h2, matchItems_capture_only n _ hn.1 hn.2]
        simp [capNames, stringMk_toList]
    | cons s2 ss =>
      cases seg with
      | lit s =>
        have h1 : itemsOf (TplSeg.lit s :: s2 :: ss) =
            s.toList.map PatItem.lit ++ PatItem.lit '/' :: itemsOf (s2 :: ss) := rfl
        have h2 : renderCand σ (TplSeg.lit s :: s2 :: ss) =
            s.toList ++ '/' :: renderCand σ (s2 :: ss) := rfl
        rw [h1, h2, matchItems_lit_append, matchItems_lit]
        simp only [if_pos rfl]
        rw [ih hrest]
        rfl
      | cap n =>
        have hn := hσ n (by simp)
        have h1 : itemsOf (TplSeg.cap n :: s2 :: ss) =
            PatItem.capture n :: PatItem.lit '/' :: itemsOf (s2 :: ss) := rfl
        have h2 : renderCand σ (TplSeg.cap n :: s2 :: ss) =
            (σ n).toList ++ '/' :: renderCand σ (s2 :: ss) := rfl
        rw [h1, h2, matchItems_capture_slash n _ _ _ hn.1 hn.2, ih hrest]
        simp [capNames, stringMk_toList]

/-! ### Segment counting: a successful match preserves the number of `/` -/

/-- The number of literal-`/` items in a compiled pattern. -/
def litSlashCount (ps : List PatItem) : Nat :=
  ps.countP (fun i => i == PatItem.lit '/')

theorem mem_take_of_le_takeWhile {p : Char → Bool} :
    ∀ (cs : List Char) (k : Nat), k ≤ (cs.takeWhile p).length →
      ∀ c ∈ cs.take k, p c = true := by
  intro cs
  induction cs with
  | nil => intro k _ c hc; simp at hc
  | cons a l ih =>
    intro k hk c hc
    cases k with
    | zero => simp at hc
    | succ j =>
      by_cases ha : p a
      · rw [List.takeWhile_cons_of_pos ha] at hk
        simp only [List.length_cons] at hk
        rw [List.take_succ_cons] at hc
        rcases List.mem_cons.mp hc with rfl | hc2
        · exact ha
        · exact ih j (by omega) c hc2
      · rw [List.takeWhile_cons_of_neg ha] at hk
        simp at hk

/-- A successful anchored match consumes one `/` of the candidate per
literal-`/` pattern item: captures (`([^/]+)`) never span a `/`. -/
theorem matchItems_count_slash (ps : List PatItem) : ∀ cs gs,
    matchItems ps cs = some gs → cs.count '/' = litSlashCount ps := by
  induction ps with
  | nil =>
    intro cs gs h
    rw [matchItems_nil] at h
    cases cs with
    | nil => simp [litSlashCount]
    | cons c cs2 => simp at h
  | cons item ps ih =>
    intro cs gs h
    cases item with
    | lit c =>
      rw [matchItems_lit] at h
      cases cs with
      | nil => simp at h
      | cons d cs2 =>
        simp only at h
        by_cases hdc : d = c
        · have hm : matchItems ps cs2 = some gs := by rwa [if_pos hdc] at h
          have hcount := ih cs2 gs hm
          subst hdc
          rw [List.count_cons, hcount]
          simp only [litSlashCount, List.countP_cons]
          by_cases hd : d = '/'
          · simp [hd]
          · simp [hd, PatItem.lit.injEq]
        · rw [if_neg hdc] at h
          simp at h
    | capture n =>
      rw [matchItems_capture] at h
      obtain ⟨k, hk, hfk⟩ := List.exists_of_findSome?_eq_some h
      rw [Option.map_eq_some'] at hfk
      obtain ⟨gs2, hm, _⟩ := hfk
      have hcount2 := ih _ _ hm
      have hklt : k < (cs.takeWhile (fun c => c != '/')).length :=
        List.mem_range.mp (List.mem_reverse.mp hk)
      have hpre : (cs.take (k + 1)).count '/' = 0 := by
        rw [List.count_eq_zero]
        intro hmem
        have := mem_take_of_le_takeWhile (p := fun c => c != '/') cs (k + 1)
          (by omega) '/' hmem
        simp at this
      have hsplit : cs.count '/' =
          (cs.take (k + 1)).count '/' + (cs.drop (k + 1)).count '/' := by
        conv_lhs => rw [← List.take_append_drop (k + 1) cs]
        exact List.count_append '/' _ _
      rw [hsplit, hpre, hcount2]
      simp only [litSlashCount, List.countP_cons]
      simp

theorem tplStep_lit_empty_run (c : Char) (rest : List Char)
    (htw : rest.takeWhile isWordChar = []) :
    tplStep c rest = (.lit c, rest) := by
  unfold tplStep
  split
  · split <;> first | rfl | simp_all
  · rfl

theorem tplStep_lit_no_close (c : Char) (rest : List Char)
    (hdr : ∀ d tl, rest.drop (rest.takeWhile isWordChar).length = d :: tl → d ≠ '}') :
    tplStep c rest = (.lit c, rest) := by
  unfold tplStep
  split
  · split
    · rfl
    · next heq1 heq2 => exact absurd rfl (hdr '}' _ heq2)
    · rfl
  · rfl

/-- Compiling a template never creates or destroys `/`: each `/` of the
template becomes a literal-`/` item, and `{word}` groups contain no `/`. -/
theorem templateToItemsGo_count_slash : ∀ (N : Nat) (t : List Char), t.length ≤ N →
    litSlashCount (templateToItems t) = t.count '/' := by
  intro N
  induction N with
  | zero =>
    intro t ht
    have : t = [] := List.length_eq_zero.mp (Nat.le_zero.mp ht)
    subst this
    rfl
  | succ K ihN =>
    intro t ht
    cases t with
    | nil => rfl
    | cons c rest =>
      simp only [List.length_cons] at ht
      rw [templateToItems_cons]
      have hlitcase : tplStep c rest = (.lit c, rest) →
          litSlashCount ((tplStep c rest).1 :: templateToItems (tplStep c rest).2) =
            (c :: rest).count '/' := by
        intro hstep
        rw [hstep]
        simp only [litSlashCount, List.countP_cons, List.count_cons]
        rw [show List.countP (fun i => i == PatItem.lit '/')
            (templateToItems rest) = litSlashCount (templateToItems rest) from rfl,
          ihN rest (by omega)]
        by_cases hcs : c = '/'
        · simp [hcs]
        · simp [hcs, PatItem.lit.injEq]
      by_cases hc : c = '{'
      · rcases htw : rest.takeWhile isWordChar with _ | ⟨w0, ws⟩
        · exact hlitcase (tplStep_lit_empty_run c rest htw)
        · rcases hdr : rest.drop (rest.takeWhile isWordChar).length with _ | ⟨d0, rest2⟩
          · refine hlitcase (tplStep_lit_no_close c rest ?_)
            intro d tl hd
            rw [hd] at hdr
            exact absurd hdr (by simp)
          · by_cases hd0 : d0 = '}'
            · subst hd0
              obtain ⟨tl, htl⟩ := (List.takeWhile_prefix isWordChar (l := rest))
              rw [htw] at htl
              have htl2 : rest.drop (rest.takeWhile isWordChar).length = tl := by
                rw [htw, ← htl]
                exact List.drop_left _ _
              rw [htl2] at hdr
              subst hdr
              have hrest : rest = (w0 :: ws) ++ '}' :: rest2 := htl.symm
              have hwword : ∀ x ∈ w0 :: ws, isWordChar x = true := by
                intro x hx
                have : x ∈ rest.takeWhile isWordChar := by rw [htw]; exact hx
                exact List.mem_takeWhile_imp this
              have hstep : tplStep c rest =
                  (.capture (String.mk (w0 :: ws)), rest2) := by
                subst hc
                rw [hrest]
                exact tplStep_capture (w0 :: ws) rest2 (by simp) hwword
              have hlen : rest2.length ≤ K := by
                have := congrArg List.length hrest
                simp only [List.length_cons, List.length_append] at this
                omega
              rw [hstep]
              simp only [litSlashCount, List.countP_cons]
              have hcapne : (PatItem.capture (String.mk (w0 :: ws)) ==
                  PatItem.lit '/') = false := by simp
              rw [hcapne]
              simp only [Bool.false_eq_true, if_false, Nat.add_zero]
              rw [show List.countP (fun i => i == PatItem.lit '/')
                  (templateToItems rest2) = litSlashCount (templateToItems rest2)
                  from rfl, ihN rest2 hlen]
              have hwmem : ∀ x ∈ w0 :: ws, x ≠ '/' := by
                intro x hx heq
                subst heq
                exact absurd (hwword _ hx) (by decide)
              have hw0 : w0 ≠ '/' := hwmem w0 (by simp)
              have hwscount : (ws : List Char).count '/' = 0 :=
                List.count_eq_zero.mpr (fun hmem => (hwmem '/' (by simp [hmem])) rfl)
              subst hc
              rw [hrest]
              simp [List.count_cons, List.count_append, hwscount, hw0]
            · refine hlitcase (tplStep_lit_no_close c rest ?_)
              intro d tl hd
              rw [hd] at hdr
              have : d = d0 := by
                have := List.cons.injEq d tl d0 rest2 ▸ hdr
                exact (List.cons.inj hdr).1
              rw [this]
              exact hd0
      · exact hlitcase (tplStep_plain c hc rest)

theorem templateToItems_count_slash (t : List Char) :
    litSlashCount (templateToItems t) = t.count '/' :=
  templateToItemsGo_count_slash t.length t le_rfl

theorem uriParamNames_itemsOf (segs : List TplSeg) :
    (itemsOf segs).filterMap
        (fun i => match i with | .capture n => some n | _ => none) =
      capNames segs := by
  induction segs with
  | nil => rfl
  | cons seg rest ih =>
    cases rest with
    | nil =>
      cases seg with
      | lit s =>
        have h1 : itemsOf [TplSeg.lit s] = s.toList.map PatItem.lit := rfl
        rw [h1]
        simp [capNames, List.filterMap_map]
      | cap n => rfl
    | cons s2 ss =>
      have h1 : itemsOf (seg :: s2 :: ss) =
          segItems seg ++ PatItem.lit '/' :: itemsOf (s2 :: ss) := rfl
      rw [h1, List.filterMap_append]
      cases seg with
      | lit s =>
        simp only [List.filterMap_cons, segItems, List.filterMap_map, ih]
        have : (Function.comp (fun i => match i with
            | PatItem.capture n => some n | _ => none) PatItem.lit) =
            (fun _ : Char => (none : Option String)) := rfl
        simp [this, capNames]
      | cap n =>
        simp only [segItems, List.filterMap_cons, ih]
        rfl

theorem zip_self_map (σ : String → String) (l : List String) :
    l.zip (l.map σ) = l.map (fun n => (n, σ n)) := by
  induction l with
  | nil => rfl
  | cons a l ih => simp [List.zip_cons_cons, ih]

theorem litSlashCount_itemsOf (segs : List TplSeg)
    (hwf : ∀ sg ∈ segs, wfSeg sg) (hne : segs ≠ []) :
    litSlashCount (itemsOf segs) = segs.length - 1 := by
  induction segs with
  | nil => exact absurd rfl hne
  | cons seg rest ih =>
    have hseg : wfSeg seg := hwf seg (by simp)
    have hseg0 : litSlashCount (segItems seg) = 0 := by
      cases seg with
      | lit s =>
        simp only [segItems, litSlashCount]
        rw [List.countP_eq_zero]
        intro i hi
        obtain ⟨c, hc, rfl⟩ := List.mem_map.mp hi
        have hplain : isPlainChar c = true := hseg c hc
        have : c ≠ '/' := isPlainChar_ne_slash hplain
        simp [this, PatItem.lit.injEq]
      | cap n => rfl
    cases rest with
    | nil =>
      have : itemsOf [seg] = segItems seg := rfl
      rw [this, hseg0]
      rfl
    | cons s2 ss =>
      have h1 : itemsOf (seg :: s2 :: ss) =
          segItems seg ++ PatItem.lit '/' :: itemsOf (s2 :: ss) := rfl
      rw [h1]
      simp only [litSlashCount, List.countP_append, List.countP_cons]
      rw [show List.countP (fun i => i == PatItem.lit '/') (segItems seg) =
          litSlashCount (segItems seg) from rfl, hseg0,
        show List.countP (fun i => i == PatItem.lit '/') (itemsOf (s2 :: ss)) =
          litSlashCount (itemsOf (s2 :: ss)) from rfl,
        ih (fun sg hsg => hwf sg (by simp [hsg])) (by simp)]
      simp

/-- **C4** (counterexample): the claim quantifies over *every* template with
captures, but for two adjacent captures inside one segment the greedy
`([^/]+)` groups do not return the substituted strings.  Substituting
`a ↦ "x"`, `b ↦ "oy"` into `ns://{a}{b}` yields the candidate `ns://xoy`,
yet the match captures `a = "xo"`, `b = "y"`. -/
theorem extractUriParams_adjacent_captures_cex :
    ("ns://" ++ "x" ++ "oy" : String) = "ns://xoy" ∧
    extractUriParams "ns://{a}{b}" "ns://xoy" = some [("a", "xo"), ("b", "y")] ∧
    some [("a", "xo"), ("b", "y")] ≠ some [("a", "x"), ("b", "oy")] :=
  ⟨rfl, by decide, by decide⟩

/-- **C4** (amended): for templates in the spec's data-model shape — `/`-
delimited segments that are either literal text of plain (regex-neutral)
characters or a whole-segment `{identifier}` capture — substituting a
nonempty `/`-free string for each capture yields a candidate that matches and
returns exactly the substituted strings keyed by capture name, verbatim; and
a candidate whose `/`-separated segment count differs from the template's
never matches. -/
theorem extractUriParams_structured (segs : List TplSeg) (σ : String → String)
    (hwf : ∀ sg ∈ segs, wfSeg sg)
    (hσ : ∀ n, TplSeg.cap n ∈ segs →
      (σ n).toList ≠ [] ∧ ∀ c ∈ (σ n).toList, c ≠ '/')
    (hne : segs ≠ []) :
    extractUriParams (String.mk (renderTpl segs)) (String.mk (renderCand σ segs)) =
      some ((capNames segs).map (fun n => (n, σ n))) ∧
    ∀ uri : String, uri.toList.count '/' + 1 ≠ segs.length →
      extractUriParams (String.mk (renderTpl segs)) uri = none := by
  have hitems : templateToItems (String.mk (renderTpl segs)).toList = itemsOf segs := by
    rw [show (String.mk (renderTpl segs)).toList = renderTpl segs from rfl]
    exact templateToItems_renderTpl segs hwf
  constructor
  · unfold extractUriParams uriParamNames
    rw [hitems,
      show (String.mk (renderCand σ segs)).toList = renderCand σ segs from rfl,
      matchItems_itemsOf σ segs hσ, uriParamNames_itemsOf segs]
    simp only [Option.map_some']
    rw [zip_self_map]
  · intro uri hcount
    unfold extractUriParams
    rw [hitems]
    cases hm : matchItems (itemsOf segs) uri.toList with
    | none => rfl
    | some gs =>
      exfalso
      have h1 : uri.toList.count '/' = litSlashCount (itemsOf segs) :=
        matchItems_count_slash (itemsOf segs) uri.toList gs hm
      have h2 : litSlashCount (itemsOf segs) = segs.length - 1 :=
        litSlashCount_itemsOf segs hwf hne
      have h3 : segs.length ≠ 0 := fun h => hne (List.length_eq_zero.mp h)
      omega

/-- Witness for `extractUriParams_structured` at the spec's own example: the
template `data://{key}` (segments `data:`, ``, `{key}`), substitution
`key ↦ "config"`; plus a candidate with a different segment count. -/
theorem extractUriParams_structured_witness :
    extractUriParams "data://{key}" "data://config" = some [("key", "config")] ∧
    extractUriParams "data://{key}" "a/b/c/d" = none := by
  have h := extractUriParams_structured
    [TplSeg.lit "data:", TplSeg.lit "", TplSeg.cap "key"] (fun _ => "config")
    (by
      intro sg hsg
      simp only [List.mem_cons, List.not_mem_nil, or_false] at hsg
      rcases hsg with rfl | rfl | rfl
      · exact (by decide : ∀ c ∈ ("data:".toList), isPlainChar c = true)
      · exact (by decide : ∀ c ∈ ("".toList), isPlainChar c = true)
      · exact ⟨by decide, by decide⟩)
    (by
      intro n hn
      simp only [List.mem_cons, List.not_mem_nil, or_false] at hn
      rcases hn with h1 | h1 | h1
      · exact absurd h1 (by simp)
      · exact absurd h1 (by simp)
      · injection h1 with h2
        subst h2
        exact ⟨by decide, by decide⟩)
    (by decide)
  exact ⟨h.1, h.2 "a/b/c/d" (by decide)⟩

/-! ## JavaScript values, metadata, and argument resolution

`Value` models the JavaScript values that flow through the dispatcher:
`undefined` and `null` are distinct, and `falsy` is JavaScript truthiness
(`undefined`, `null`, `false`, `0`, `''`). -/

inductive Value where
  | undef
  | vnull
  | vbool (b : Bool)
  | vnum (n : Int)
  | vstr (s : String)
  | varr (xs : List Value)
  | vobj (fs : List (String × Value))

/-- JavaScript falsiness: `!value` is true exactly on these. -/
def falsy : Value → Bool
  | .undef => true
  | .vnull => true
  | .vbool b => !b
  | .vnum n => n == 0
  | .vstr s => s == ""
  | _ => false

/-- One parameter-binding declaration (`McpParamMetadata`): the binding kind
(`'input'`, `'param'` or `'promptArg'`), the bound name for the named kinds,
the positional index, and the owning method.  The `target` field (the class
constructor) is already fixed once `extractMetadata` selects the class and is
omitted. -/
structure McpParamMetadata where
  type : String
  name : Option String
  parameterIndex : Nat
  propertyKey : String
deriving DecidableEq, Repr

/-- `args[i] = v` on a JavaScript array: assigning past the end extends the
array with holes (`none`, read back as `undefined`). -/
def setIdx (args : List (Option Value)) (i : Nat) (v : Value) :
    List (Option Value) :=
  if i < args.length then args.set i (some v)
  else args ++ List.replicate (i - args.length) none ++ [some v]

/-- `resolveToolArgs`: with no `'input'` bindings for the method, the whole
raw arguments object is the single positional argument; otherwise the raw
object is placed at every declared index of an `'input'` binding. -/
def resolveToolArgs (metaParams : List McpParamMetadata) (propertyKey : String)
    (input : Value) : List (Option Value) :=
  let params := metaParams.filter
    (fun p => p.propertyKey == propertyKey && p.type == "input")
  if params.isEmpty then [some input]
  else params.foldl (fun args p => setIdx args p.parameterIndex input) []

/-- `resolveResourceArgs`: for each `'param'` binding with a (truthy) name,
place `uriParams[name]` — the captured string, or `undefined` when the name
was not captured — at the declared index; bindings without a name are
skipped, and with no bindings the array stays empty. -/
def resolveResourceArgs (metaParams : List McpParamMetadata)
    (propertyKey : String) (uriParams : List (String × String)) :
    List (Option Value) :=
  let params := metaParams.filter
    (fun p => p.propertyKey == propertyKey && p.type == "param")
  params.foldl (fun args p =>
    match p.name with
    | some nm =>
      if nm = "" then args
      else setIdx args p.parameterIndex
        ((lookupLast uriParams nm).elim Value.undef Value.vstr)
    | none => args) []

/-- The argument array the inline WebSocket `tools/call` handler passes to
the method: `method.apply(this.instance, [toolParams.arguments ?? {}])` —
always the raw arguments object as a single first positional argument; it
never consults `resolveToolArgs`. -/
def wsToolCallArgs (rawArgs : Value) : List (Option Value) := [some rawArgs]

theorem setIdx_length (args : List (Option Value)) (i : Nat) (v : Value) :
    (setIdx args i v).length = max args.length (i + 1) := by
  unfold setIdx
  split <;>
    simp [List.length_set, List.length_append, List.length_replicate] <;> omega

theorem foldl_setIdx_length_mono (input : Value) (ps : List McpParamMetadata) :
    ∀ args : List (Option Value),
      args.length ≤
        (ps.foldl (fun a p => setIdx a p.parameterIndex input) args).length := by
  induction ps with
  | nil => intro args; exact le_rfl
  | cons p ps ih =>
    intro args
    calc args.length ≤ (setIdx args p.parameterIndex input).length := by
          rw [setIdx_length]; omega
      _ ≤ _ := ih _

theorem foldl_setIdx_length_ge (input : Value) (ps : List McpParamMetadata) :
    ∀ (args : List (Option Value)) (p : McpParamMetadata), p ∈ ps →
      p.parameterIndex + 1 ≤
        (ps.foldl (fun a q => setIdx a q.parameterIndex input) args).length := by
  induction ps with
  | nil => intro args p hp; simp at hp
  | cons q ps ih =>
    intro args p hp
    rcases List.mem_cons.mp hp with rfl | hp2
    · simp only [List.foldl_cons]
      calc p.parameterIndex + 1 ≤ (setIdx args p.parameterIndex input).length := by
            rw [setIdx_length]; omega
        _ ≤ _ := foldl_setIdx_length_mono input ps _
    · exact ih _ p hp2

theorem foldl_setIdx_all_zero (input : Value) (ps : List McpParamMetadata)
    (hz : ∀ p ∈ ps, p.parameterIndex = 0) :
    ps.foldl (fun a p => setIdx a p.parameterIndex input) [some input] =
      [some input] := by
  induction ps with
  | nil => rfl
  | cons q ps ih =>
    have hq : q.parameterIndex = 0 := hz q (by simp)
    have hstep : setIdx [some input] q.parameterIndex input = [some input] := by
      rw [hq]
      rfl
    simp only [List.foldl_cons, hstep]
    exact ih (fun p hp => hz p (by simp [hp]))

/-- **C2** (counterexample): a handler with one `WholeInput` (`'input'`)
binding at positional index 1.  The canonical resolver produces
`[undefined, input]`; the inline WebSocket handler always passes `[input]`. -/
theorem wsToolCallArgs_cex :
    resolveToolArgs [⟨"input", none, 1, "m"⟩] "m" (.vnum 5)
      = [none, some (.vnum 5)] ∧
    wsToolCallArgs (.vnum 5) = [some (.vnum 5)] ∧
    ([some (Value.vnum 5)] : List (Option Value)) ≠ [none, some (.vnum 5)] := by
  refine ⟨rfl, rfl, by simp⟩

/-- **C2** (amended): the inline WebSocket `tools/call` handler always passes
the raw arguments object as the single first positional argument; this
coincides with the canonical dispatcher's `resolveToolArgs` output exactly
when every declared `'input'` binding of the handler sits at positional
index 0 (in particular when no bindings are declared). -/
theorem wsToolCallArgs_eq_resolveToolArgs_iff (metaParams : List McpParamMetadata)
    (propertyKey : String) (input : Value) :
    wsToolCallArgs input = resolveToolArgs metaParams propertyKey input ↔
      ∀ p ∈ metaParams.filter
        (fun p => p.propertyKey == propertyKey && p.type == "input"),
        p.parameterIndex = 0 := by
  simp only [resolveToolArgs, wsToolCallArgs]
  constructor
  · intro h p hp
    by_contra hne
    rcases hfe : metaParams.filter
        (fun p => p.propertyKey == propertyKey && p.type == "input") with _ | ⟨q, qs⟩
    · rw [hfe] at hp
      simp at hp
    · rw [hfe] at h hp
      rw [if_neg (by simp)] at h
      have hlen := foldl_setIdx_length_ge input (q :: qs) [] p hp
      rw [← h] at hlen
      simp only [List.length_cons, List.length_nil] at hlen
      omega
  · intro hall
    rcases hfe : metaParams.filter
        (fun p => p.propertyKey == propertyKey && p.type == "input") with _ | ⟨q, qs⟩
    · rw [hfe]
      simp
    · rw [hfe, if_neg (by simp)]
      have hq : q.parameterIndex = 0 := hall q (by rw [hfe]; simp)
      have hstep : setIdx [] q.parameterIndex input = [some input] := by
        rw [hq]
        rfl
      simp only [List.foldl_cons, hstep]
      exact (foldl_setIdx_all_zero input qs
        (fun p hp => hall p (by rw [hfe]; simp [hp]))).symm

/-- Witness for `wsToolCallArgs_eq_resolveToolArgs_iff`: a single `'input'`
binding at index 0 makes the two argument arrays agree. -/
theorem wsToolCallArgs_eq_resolveToolArgs_iff_witness :
    wsToolCallArgs (.vnum 7) = resolveToolArgs [⟨"input", none, 0, "m"⟩] "m" (.vnum 7) :=
  (wsToolCallArgs_eq_resolveToolArgs_iff [⟨"input", none, 0, "m"⟩] "m" (.vnum 7)).mpr
    (by decide)

/-! ## resources/read: canonical dispatcher vs. inline WebSocket handler -/

/-- A resource declaration as the read path consumes it: the URI template and
the handler method key.  (`name`, `description` and `mimeType` only surface
in `resources/list`.) -/
structure ResourceMeta where
  uri : String
  propertyKey : String
deriving DecidableEq, Repr

/-- The `for (const resource of resources)` scan shared by both read paths:
the first declaration (in registration order) whose template structurally
matches the URI, with its extracted parameters. -/
def firstResourceMatch (resources : List ResourceMeta) (uri : String) :
    Option (ResourceMeta × List (String × String)) :=
  resources.findSome? (fun r => (extractUriParams r.uri uri).map (fun ps => (r, ps)))

/-- The canonical dispatcher's `resources/read` handler: throw
`Resource not found` when no template matches, otherwise resolve the
arguments and return the handler's result unwrapped.  The user handler
(`method.apply`) is modelled as a total function from method key and
positional arguments to a value. -/
def canonicalResourcesRead (resources : List ResourceMeta)
    (metaParams : List McpParamMetadata)
    (handler : String → List (Option Value) → Value) (uri : String) :
    Except String Value :=
  match firstResourceMatch resources uri with
  | some (r, ps) =>
    .ok (handler r.propertyKey (resolveResourceArgs metaParams r.propertyKey ps))
  | none => .error ("Resource not found: " ++ uri)

/-- A JSON-RPC level outcome of the inline WebSocket `resources/read` case. -/
inductive WsReadOutcome where
  | ok (v : Value)
  | err (code : Int) (msg : String)

/-- The inline WebSocket `resources/read` case: `result` starts `undefined`,
the first matching declaration's handler result is assigned to it, and the
error is produced under `if (!result)` — i.e. also when a matched handler
returned a falsy value. -/
def wsResourcesRead (resources : List ResourceMeta)
    (metaParams : List McpParamMetadata)
    (handler : String → List (Option Value) → Value) (uri : String) :
    WsReadOutcome :=
  match firstResourceMatch resources uri with
  | some (r, ps) =>
    let result := handler r.propertyKey (resolveResourceArgs metaParams r.propertyKey ps)
    if falsy result then .err (-32602) ("Resource not found: " ++ uri)
    else .ok result
  | none => .err (-32602) ("Resource not found: " ++ uri)

/-- **C3** (counterexample): in the WebSocket path a template matches the
requested URI, yet because the matched handler returns `null` (falsy) the
response is the `Resource not found` error instead of the handler's value. -/
theorem wsResourcesRead_falsy_cex :
    extractUriParams "data://{key}" "data://config" = some [("key", "config")] ∧
    wsResourcesRead [⟨"data://{key}", "h"⟩] [] (fun _ _ => Value.vnull)
        "data://config"
      = WsReadOutcome.err (-32602) "Resource not found: data://config" :=
  ⟨by decide, rfl⟩

/-- **C3** (amended): the canonical `resources/read` errors exactly when no
declared template matches and otherwise returns the first matched handler's
value unwrapped; the inline WebSocket path additionally replaces a *falsy*
handler result (`undefined`, `null`, `false`, `0`, `''`) by the
`Resource not found` error, and passes truthy results back unwrapped. -/
theorem resourcesRead_characterization (resources : List ResourceMeta)
    (metaParams : List McpParamMetadata)
    (handler : String → List (Option Value) → Value) (uri : String) :
    (canonicalResourcesRead resources metaParams handler uri =
        Except.error ("Resource not found: " ++ uri) ↔
      firstResourceMatch resources uri = none) ∧
    (∀ r ps, firstResourceMatch resources uri = some (r, ps) →
      canonicalResourcesRead resources metaParams handler uri =
        Except.ok (handler r.propertyKey
          (resolveResourceArgs metaParams r.propertyKey ps))) ∧
    (wsResourcesRead resources metaParams handler uri =
        WsReadOutcome.err (-32602) ("Resource not found: " ++ uri) ↔
      (firstResourceMatch resources uri = none ∨
        ∃ r ps, firstResourceMatch resources uri = some (r, ps) ∧
          falsy (handler r.propertyKey
            (resolveResourceArgs metaParams r.propertyKey ps)) = true)) ∧
    (∀ r ps, firstResourceMatch resources uri = some (r, ps) →
      falsy (handler r.propertyKey
        (resolveResourceArgs metaParams r.propertyKey ps)) = false →
      wsResourcesRead resources metaParams handler uri =
        WsReadOutcome.ok (handler r.propertyKey
          (resolveResourceArgs metaParams r.propertyKey ps))) := by
  refine ⟨?_, ?_, ?_, ?_⟩
  · cases hfm : firstResourceMatch resources uri with
    | none => simp [canonicalResourcesRead, hfm]
    | some rp => simp [canonicalResourcesRead, hfm]
  · intro r ps hfm
    simp [canonicalResourcesRead, hfm]
  · cases hfm : firstResourceMatch resources uri with
    | none => simp [wsResourcesRead, hfm]
    | some rp =>
      obtain ⟨r, ps⟩ := rp
      cases hf : falsy (handler r.propertyKey
          (resolveResourceArgs metaParams r.propertyKey ps)) with
      | true =>
        simp only [wsResourcesRead, hfm, hf, if_true, if_pos]
        simp [hf]
        exact ⟨r, ps, ⟨rfl, rfl⟩, hf⟩
      | false => simp [wsResourcesRead, hfm, hf]
  · intro r ps hfm hf
    simp [wsResourcesRead, hfm, hf]

/-- Witness for `resourcesRead_characterization`: a matched handler returning
a truthy string is passed back unwrapped on both paths. -/
theorem resourcesRead_characterization_witness :
    wsResourcesRead [⟨"data://{key}", "h"⟩] [] (fun _ _ => Value.vstr "data")
        "data://config"
      = WsReadOutcome.ok (Value.vstr "data") ∧
    canonicalResourcesRead [⟨"data://{key}", "h"⟩] [] (fun _ _ => Value.vstr "data")
        "data://config"
      = Except.ok (Value.vstr "data") := by
  have h := resourcesRead_characterization [⟨"data://{key}", "h"⟩] []
    (fun _ _ => Value.vstr "data") "data://config"
  exact ⟨h.2.2.2 ⟨"data://{key}", "h"⟩ [("key", "config")] (by decide) rfl,
    h.2.1 ⟨"data://{key}", "h"⟩ [("key", "config")] (by decide)⟩

/-! ## API-key authentication middleware (`auth/index`)

Requests are modelled by the fields the middleware reads: the (Node-
lower-cased) header map and the request URL.  `generateRequestId` draws on
the clock and randomness, so the request id is a parameter of the model.
The `onAuthSuccess`/`onAuthFailure` callbacks are side effects and carry no
data back into the middleware's result, so they are not modelled. -/

/-- A Node header value: a string, or an array of strings. -/
inductive HeaderValue where
  | str (s : String)
  | arr (xs : List String)
deriving DecidableEq, Repr

/-- The slice of `IncomingMessage` the middleware reads. -/
structure HttpRequest where
  headers : List (String × HeaderValue)
  url : String
deriving DecidableEq, Repr

/-- The numeric value of a hexadecimal digit (codepoints 48–57 are `0`–`9`,
65–70 are `A`–`F`, 97–102 are `a`–`f`). -/
def hexVal (c : Char) : Option Nat :=
  if c.isDigit then some (c.toNat - 48)
  else if 65 ≤ c.toNat && c.toNat ≤ 70 then some (c.toNat - 55)
  else if 97 ≤ c.toNat && c.toNat ≤ 102 then some (c.toNat - 87)
  else none

/-- `URLSearchParams` component decoding: `+` becomes a space and `%XX` the
character with code `XX`.  (Exact for single-byte escapes; multi-byte UTF-8
escape sequences are outside the modelled fragment and do not occur in the
theorems below.) -/
def decodeComponentGo : Nat → List Char → List Char
  | 0, _ => []
  | _, [] => []
  | fuel + 1, c :: rest =>
    if c = '+' then ' ' :: decodeComponentGo fuel rest
    else if c = '%' then
      match rest with
      | h1 :: h2 :: rest2 =>
        match hexVal h1, hexVal h2 with
        | some a, some b => Char.ofNat (16 * a + b) :: decodeComponentGo fuel rest2
        | _, _ => c :: decodeComponentGo fuel rest
      | _ => c :: decodeComponentGo fuel rest
    else c :: decodeComponentGo fuel rest

/-- See `decodeComponentGo`; the counter `l.length` always suffices. -/
def decodeComponent (l : List Char) : List Char := decodeComponentGo l.length l

/-- One `name=value` pair of a query string (an empty segment is skipped;
a segment without `=` gets the empty value). -/
def parsePair (pair : List Char) : Option (String × String) :=
  if pair = [] then none
  else
    let nm := pair.takeWhile (fun c => c != '=')
    match pair.drop nm.length with
    | '=' :: v =>
      some (String.mk (decodeComponent nm), String.mk (decodeComponent v))
    | _ => some (String.mk (decodeComponent nm), "")

/-- `new URLSearchParams(qs)`: the decoded name/value pairs in order. -/
def parseQuery (qs : List Char) : List (String × String) :=
  (qs.splitOn '&').filterMap parsePair

/-- `searchParams.get(name)`: the first value for `name`, or `null`. -/
def searchParamsGet (qs : List Char) (nm : String) : Option String :=
  (parseQuery qs).lookup nm

/-- The query-parameter leg of `extractApiKey`: find the first `?`, parse
what follows, and return the parameter's value when it is truthy. -/
def extractQuery (req : HttpRequest) (queryParamName : String) : Option String :=
  if '?' ∈ req.url.toList then
    let qs := (req.url.toList.dropWhile (fun c => c != '?')).drop 1
    match searchParamsGet qs queryParamName with
    | some v => if v = "" then none else some v
    | none => none
  else none

/-- `headerName.toLowerCase()` (header names are ASCII). -/
def lowerAscii (s : String) : String := String.mk (s.toList.map Char.toLower)

/-- `a.startsWith(pre)`, character-wise. -/
def strStartsWith (a pre : String) : Bool := pre.toList.isPrefixOf a.toList

/-- `a.slice(n)`: drop the first `n` characters. -/
def strDrop (a : String) (n : Nat) : String := String.mk (a.toList.drop n)

/-- The `Authorization: Bearer` leg of `extractApiKey`, falling through to
the query parameter.  (A string-array `authorization` header cannot occur in
Node; the theorems assume it is absent or a string.) -/
def extractBearerOrQuery (req : HttpRequest) (queryParamName : String) :
    Option String :=
  match req.headers.lookup "authorization" with
  | some (.str a) =>
    if strStartsWith a "Bearer " then some (strDrop a 7)
    else extractQuery req queryParamName
  | some (.arr _) => extractQuery req queryParamName
  | none => extractQuery req queryParamName

/-- `extractApiKey(req, headerName, queryParamName)`: the custom header
(lower-cased name) if truthy — for an array value, its first element — then
the `Bearer` token, then the query parameter. -/
def extractApiKey (req : HttpRequest) (headerName queryParamName : String) :
    Option String :=
  match req.headers.lookup (lowerAscii headerName) with
  | some (.str s) =>
    if s = "" then extractBearerOrQuery req queryParamName
    else some s
  | some (.arr xs) => xs.head?
  | none => extractBearerOrQuery req queryParamName

example :
    extractApiKey ⟨[("x-api-key", .str "K")], "/"⟩ "x-api-key" "api_key"
      = some "K" := rfl
example :
    extractApiKey ⟨[("authorization", .str "Bearer tok")], "/"⟩ "x-api-key" "api_key"
      = some "tok" := rfl
example :
    extractApiKey ⟨[], "/sse?api_key=qk"⟩ "x-api-key" "api_key" = some "qk" := rfl

/-- Spec-side (§4.4): the credential the custom header supplies, when the
header is present with a (string) value. -/
def headerSource (req : HttpRequest) (headerName : String) : Option String :=
  match req.headers.lookup (lowerAscii headerName) with
  | some (.str s) => some s
  | _ => none

/-- Spec-side: the credential the `Authorization: Bearer <token>` header
supplies. -/
def bearerSource (req : HttpRequest) : Option String :=
  match req.headers.lookup "authorization" with
  | some (.str a) => if strStartsWith a "Bearer " then some (strDrop a 7) else none
  | _ => none

/-- Spec-side: the credential the query parameter supplies. -/
def querySource (req : HttpRequest) (queryParamName : String) : Option String :=
  extractQuery req queryParamName

/-- Spec-side: "first present source wins" — custom header, then Bearer,
then query parameter; sources are never combined. -/
def firstPresentSource (req : HttpRequest) (headerName queryParamName : String) :
    Option String :=
  match headerSource req headerName with
  | some s => some s
  | none =>
    match bearerSource req with
    | some t => some t
    | none => querySource req queryParamName

/-- **C7**: for every request whose custom header, when present, carries a
nonempty string value and whose `authorization` header, when present, is a
string, the implementation's `extractApiKey` extracts the credential of the
first present source in the fixed order header → Bearer → query; in
particular a request carrying both a header key and a query-parameter key
authenticates with the header's value, and sources are never combined. -/
theorem extractApiKey_first_present_source (req : HttpRequest)
    (headerName queryParamName : String)
    (h1 : ∀ v, req.headers.lookup (lowerAscii headerName) = some v →
      ∃ s, v = .str s ∧ s ≠ "")
    (h2 : ∀ v, req.headers.lookup "authorization" = some v → ∃ s, v = .str s) :
    extractApiKey req headerName queryParamName =
      firstPresentSource req headerName queryParamName := by
  unfold extractApiKey firstPresentSource headerSource bearerSource querySource
  cases hh : req.headers.lookup (lowerAscii headerName) with
  | none =>
    unfold extractBearerOrQuery
    cases ha : req.headers.lookup "authorization" with
    | none => rfl
    | some v =>
      obtain ⟨s, rfl⟩ := h2 v ha
      by_cases hb : strStartsWith s "Bearer " = true
      · simp [hb]
      · simp [hb]
  | some v =>
    obtain ⟨s, rfl, hs⟩ := h1 v hh
    simp [hs]

/-- Witness for `extractApiKey_first_present_source`: a request carrying both
the custom header (`H1`) and a query key (`Q1`) authenticates with `H1`. -/
theorem extractApiKey_first_present_source_witness :
    extractApiKey ⟨[("x-api-key", .str "H1")], "/ws?api_key=Q1"⟩
      "x-api-key" "api_key" = some "H1" := by
  have h := extractApiKey_first_present_source
    ⟨[("x-api-key", .str "H1")], "/ws?api_key=Q1"⟩ "x-api-key" "api_key"
    (by
      intro v hv
      have h := Option.some.inj (show some (HeaderValue.str "H1") = some v from hv)
      exact ⟨"H1", h.symm, by decide⟩)
    (by
      intro v hv
      exact Option.noConfusion (show (none : Option HeaderValue) = some v from hv))
  rw [h]
  rfl

/-- `ApiKeyConfig`: the key string with optional name, scopes and metadata. -/
structure ApiKeyConfig where
  key : String
  name : Option String
  scopes : Option (List String)
  metadata : Option Value

/-- The `apiKeys` option: a single key string, or an array whose entries are
key strings or full configs (`undefined` is modelled by `none` outside). -/
inductive ApiKeysInput where
  | str (s : String)
  | list (ks : List (Sum String ApiKeyConfig))

/-- `normalizeApiKeys`: `[]` for a falsy input, a `default`-named config for
a single string, and per-entry conversion (`key-<index+1>` names for bare
strings) for an array. -/
def normalizeApiKeys : Option ApiKeysInput → List ApiKeyConfig
  | none => []
  | some (.str s) =>
    if s = "" then [] else [⟨s, some "default", none, none⟩]
  | some (.list ks) =>
    ks.mapIdx (fun i k =>
      match k with
      | .inl s => ⟨s, some ("key-" ++ toString (i + 1)), none, none⟩
      | .inr cfg => cfg)

/-- `hashToken`: `'****'` for tokens of at most 8 characters, otherwise
`first4 + '...' + last4` (`token.slice(0, 4)` and `token.slice(-4)`). -/
def hashToken (token : String) : String :=
  if token.length ≤ 8 then "****"
  else String.mk (token.toList.take 4) ++ "..." ++
    String.mk (token.toList.drop (token.length - 4))

/-- The result record of authentication. -/
structure AuthResult where
  success : Bool
  clientId : Option String
  clientName : Option String
  scopes : Option (List String)
  metadata : Option Value
  error : Option String

/-- `validateApiKey`: fail with `No API key provided` on a falsy token, with
`Invalid API key` when no configured key matches exactly, and otherwise
succeed with `clientId = hashToken(token)` and the matched key's name, scopes
and metadata. -/
def validateApiKey (token : Option String) (apiKeys : List ApiKeyConfig) :
    AuthResult :=
  match token with
  | none => ⟨false, none, none, none, none, some "No API key provided"⟩
  | some t =>
    if t = "" then ⟨false, none, none, none, none, some "No API key provided"⟩
    else
      match apiKeys.find? (fun k => k.key == t) with
      | none => ⟨false, none, none, none, none, some "Invalid API key"⟩
      | some k => ⟨true, some (hashToken t), k.name, k.scopes, k.metadata, none⟩

/-- A custom `authenticate` callback's result: a bare boolean or a full
structured result. -/
inductive AuthCbResult where
  | bool (b : Bool)
  | result (r : AuthResult)

/-- The middleware options (callback side effects omitted; the custom
`authenticate` callback is modelled as a pure function). -/
structure McpAuthOptions where
  enabled : Option Bool
  apiKeys : Option ApiKeysInput
  headerName : Option String
  queryParamName : Option String
  authenticate : Option (Option String → HttpRequest → AuthCbResult)

/-- The `AuthResult` the middleware computes when auth is enabled: the
custom callback if supplied (a boolean is expanded to a minimal result),
else built-in key validation. -/
def authResultFor (opts : McpAuthOptions) (req : HttpRequest) : AuthResult :=
  let token := extractApiKey req (opts.headerName.getD "x-api-key")
    (opts.queryParamName.getD "api_key")
  match opts.authenticate with
  | some cb =>
    match cb token req with
    | .bool b =>
      ⟨b, if b then some (hashToken (token.getD "unknown")) else none,
        none, none, none, if b then none else some "Authentication failed"⟩
    | .result r => r
  | none => validateApiKey token (normalizeApiKeys opts.apiKeys)

/-- The JSON body of the 401 response. -/
structure UnauthorizedBody where
  error : String
  message : String
  requestId : String

/-- What a middleware call produces: an authenticated context, or a written
401 response (the middleware then returns `null`). -/
inductive MiddlewareOutcome where
  | allowed (auth : AuthResult) (requestId : String)
  | unauthorized (body : UnauthorizedBody)

/-- `createAuthMiddleware(options)` applied to one request: anonymous
success when auth is disabled (`enabled` defaults to `false`), otherwise a
401 JSON body `{error: 'Unauthorized', message, requestId}` exactly when the
computed result is unsuccessful. -/
def runAuthMiddleware (opts : McpAuthOptions) (req : HttpRequest)
    (requestId : String) : MiddlewareOutcome :=
  if opts.enabled.getD false = false then
    .allowed ⟨true, some "anonymous", none, none, none, none⟩ requestId
  else
    let result := authResultFor opts req
    if result.success = false then
      .unauthorized
        ⟨"Unauthorized", result.error.getD "Authentication required", requestId⟩
    else .allowed result requestId

/-- **C8**: with auth disabled (the default with no options) every request
gets an anonymous success context and no 401 is ever written; and the 401
body `{error: 'Unauthorized', message, requestId}` is written (and `null`
returned) exactly when auth is enabled and the computed validation result is
unsuccessful. -/
theorem runAuthMiddleware_disabled_anonymous_and_401 (opts : McpAuthOptions)
    (req : HttpRequest) (requestId : String) :
    (opts.enabled.getD false = false →
      runAuthMiddleware opts req requestId =
        .allowed ⟨true, some "anonymous", none, none, none, none⟩ requestId) ∧
    (runAuthMiddleware opts req requestId =
        .unauthorized ⟨"Unauthorized",
          (authResultFor opts req).error.getD "Authentication required",
          requestId⟩ ↔
      opts.enabled.getD false = true ∧
        (authResultFor opts req).success = false) ∧
    (∀ body, runAuthMiddleware opts req requestId = .unauthorized body →
      body.error = "Unauthorized" ∧ body.requestId = requestId) := by
  unfold runAuthMiddleware
  by_cases he : opts.enabled.getD false = false
  · refine ⟨fun _ => by rw [if_pos he], ?_, ?_⟩
    · rw [if_pos he]
      constructor
      · intro h
        exact absurd h (by simp)
      · intro ⟨h1, _⟩
        rw [he] at h1
        exact absurd h1 (by simp)
    · intro body h
      rw [if_pos he] at h
      exact absurd h (by simp)
  · have he2 : opts.enabled.getD false = true := by
      cases hb : opts.enabled.getD false
      · exact absurd hb he
      · rfl
    refine ⟨fun h => absurd h he, ?_, ?_⟩
    · rw [if_neg he]
      cases hs : (authResultFor opts req).success
      · simp [hs, he2]
      · simp [hs]
    · intro body h
      rw [if_neg he] at h
      cases hs : (authResultFor opts req).success
      · simp only [hs] at h
        injection h with h2
        subst h2
        exact ⟨rfl, rfl⟩
      · simp only [hs] at h
        exact MiddlewareOutcome.noConfusion h

/-- Witness for `runAuthMiddleware_disabled_anonymous_and_401`: middleware
constructed with no options allows any request anonymously. -/
theorem runAuthMiddleware_disabled_witness :
    runAuthMiddleware ⟨none, none, none, none, none⟩ ⟨[], "/"⟩ "req_1"
      = MiddlewareOutcome.allowed
          ⟨true, some "anonymous", none, none, none, none⟩ "req_1" :=
  (runAuthMiddleware_disabled_anonymous_and_401
    ⟨none, none, none, none, none⟩ ⟨[], "/"⟩ "req_1").1 rfl

/-- **C10**: every token the built-in validation accepts gets
`clientId = hashToken(token)`: the constant `'****'` for tokens of at most 8
characters, and otherwise the 11-character `first4 + '...' + last4`; so the
logged `clientId` never exceeds 11 characters. -/
theorem validateApiKey_clientId_hashToken (token : String)
    (apiKeys : List ApiKeyConfig)
    (h : (validateApiKey (some token) apiKeys).success = true) :
    (validateApiKey (some token) apiKeys).clientId = some (hashToken token) ∧
    (token.length ≤ 8 → hashToken token = "****") ∧
    (8 < token.length →
      hashToken token = String.mk (token.toList.take 4) ++ "..." ++
        String.mk (token.toList.drop (token.length - 4)) ∧
      (hashToken token).length = 11) ∧
    (hashToken token).length ≤ 11 := by
  have hlen : ∀ l : List Char, (String.mk l).length = l.length := fun _ => rfl
  have htl : token.length = token.toList.length := rfl
  have hshape : 8 < token.length → (hashToken token).length = 11 := by
    intro h8
    unfold hashToken
    rw [if_neg (by omega)]
    have h3 : ("..." : String).length = 3 := rfl
    have t1 : (String.mk (token.toList.take 4)).length =
        (token.toList.take 4).length := rfl
    have t2 : (String.mk (token.toList.drop (token.length - 4))).length =
        (token.toList.drop (token.length - 4)).length := rfl
    rw [String.length_append, String.length_append, t1, t2, h3,
      List.length_take, List.length_drop]
    omega
  refine ⟨?_, ?_, ?_, ?_⟩
  · simp only [validateApiKey] at h ⊢
    by_cases ht : token = ""
    · rw [if_pos ht] at h
      exact absurd h (by simp)
    · rw [if_neg ht] at h ⊢
      cases hf : apiKeys.find? (fun k => k.key == token) with
      | none =>
        rw [hf] at h
        exact absurd h (by simp)
      | some k => rfl
  · intro h8
    unfold hashToken
    rw [if_pos h8]
  · intro h8
    refine ⟨?_, hshape h8⟩
    unfold hashToken
    rw [if_neg (by omega)]
  · by_cases h8 : token.length ≤ 8
    · unfold hashToken
      rw [if_pos h8]
      decide
    · rw [hshape (by omega)]

/-- Witness for `validateApiKey_clientId_hashToken`: a 17-character accepted
token gets the 11-character `my-s...en-1`-style client id. -/
theorem validateApiKey_clientId_hashToken_witness :
    (validateApiKey (some "my-secret-token-1")
        [⟨"my-secret-token-1", some "default", none, none⟩]).clientId
      = some (hashToken "my-secret-token-1") ∧
    (hashToken "my-secret-token-1").length ≤ 11 := by
  have h := validateApiKey_clientId_hashToken "my-secret-token-1"
    [⟨"my-secret-token-1", some "default", none, none⟩] rfl
  exact ⟨h.1, h.2.2.2⟩
